import Mathlib

/-!
Verification of the range-replica engine of a sharded replicated key-value
store, against its natural-language specification.

The development shallowly embeds the relevant source functions:

* the batch model (`BatchRequest.Split`, `BatchResponse.Combine`) from the
  `roachpb` package;
* the replica raft-storage adapter (`Replica.Entries`, `Replica.Append`,
  `Replica.ApplySnapshot`) from `storage/replica_raftstorage.go`;
* store-level helpers (`verifyKeys`, `Store.Bootstrap`, `Store.GroupStorage`)
  from `storage/store.go`;
* the coalesced-heartbeat fan-out (`state.fanoutHeartbeat`) from
  `multiraft/multiraft.go`.

Machine integers (uint64 log indices, int64 wall times) are modelled as `Nat`
or `Int`; none of the verified paths exercise wrap-around.  Engines and Go
maps are modelled as association lists with explicit get/put/delete.
Definitions whose source is not part of the repository snapshot (request-flag
tables, key-space constants, protobuf sizes) are modelled from the spec and
say so in their doc comment.
-/

/-! ### Batch model: request flags and `BatchRequest.Split` -/

/-- Request flags, one `Bool` per flag bit of the source's flag mask
(`isRead`, `isWrite`, `isAdmin`, `isRange`, `isReverse`, `isTxn`,
`isTxnWrite`, `isAlone`). -/
structure Flags where
  read : Bool
  write : Bool
  admin : Bool
  range : Bool
  reverse : Bool
  txn : Bool
  txnWrite : Bool
  alone : Bool
deriving DecidableEq

/-- The zero flag mask (`var flags int` before any `|=`). -/
def Flags.zero : Flags := ⟨false, false, false, false, false, false, false, false⟩

/-- Bitwise or of two flag masks (`gFlags |= flags`). -/
def Flags.or (a b : Flags) : Flags :=
  ⟨a.read || b.read, a.write || b.write, a.admin || b.admin, a.range || b.range,
   a.reverse || b.reverse, a.txn || b.txn, a.txnWrite || b.txnWrite, a.alone || b.alone⟩

/-- One entry of `BatchRequest.Requests`: the flags of the wrapped request
plus an opaque payload standing for the rest of the request. -/
structure RequestUnion where
  flags : Flags
  payload : Nat
deriving DecidableEq

/-- The `compatible` closure inside `BatchRequest.Split`: with no flags
accumulated everything goes; an `isAlone` request never joins a non-empty
group; otherwise the `{isWrite, isAdmin, isReverse}` sub-mask must be
unchanged by the new request.  `isRead` is deliberately not in the mask. -/
def compatible (exFlags newFlags : Flags) : Bool :=
  if exFlags = Flags.zero then true
  else if newFlags.alone then false
  else exFlags.write = newFlags.write && exFlags.admin = newFlags.admin
    && exFlags.reverse = newFlags.reverse

/-- The inner loop of `BatchRequest.Split`: starting from accumulated flags
`g`, take the longest compatible run; return it and the untouched tail. -/
def gobble (g : Flags) : List RequestUnion → List RequestUnion × List RequestUnion
  | [] => ([], [])
  | r :: rs =>
    if compatible g r.flags then
      let p := gobble (g.or r.flags) rs
      (r :: p.1, p.2)
    else ([], r :: rs)

theorem gobble_append (g : Flags) (l : List RequestUnion) :
    (gobble g l).1 ++ (gobble g l).2 = l := by
  induction l generalizing g with
  | nil => rfl
  | cons r rs ih =>
    by_cases h : compatible g r.flags = true
    · simp [gobble, h, ih]
    · simp [gobble, h]

theorem gobble_snd_length (g : Flags) (l : List RequestUnion) :
    (gobble g l).2.length ≤ l.length := by
  induction l generalizing g with
  | nil => simp [gobble]
  | cons r rs ih =>
    by_cases h : compatible g r.flags = true
    · simp only [gobble, h, if_true]
      exact Nat.le_succ_of_le (ih _)
    · simp [gobble, h]

/-- Re-running `gobble` from the same accumulated flags over a run it already
accepted accepts the whole run again and leaves nothing. -/
theorem gobble_gobble (g : Flags) (l : List RequestUnion) :
    gobble g (gobble g l).1 = ((gobble g l).1, []) := by
  induction l generalizing g with
  | nil => rfl
  | cons r rs ih =>
    by_cases h : compatible g r.flags = true
    · simp only [gobble, h, if_true]
      have := ih (g.or r.flags)
      simp [gobble, h, this]
    · simp [gobble, h]

/-- `BatchRequest.Split`: greedily peel maximal compatible runs off the front
of the request list, in order. -/
def BatchRequest.Split : List RequestUnion → List (List RequestUnion)
  | [] => []
  | r :: rs =>
    (r :: (gobble (Flags.or Flags.zero r.flags) rs).1) ::
      BatchRequest.Split (gobble (Flags.or Flags.zero r.flags) rs).2
termination_by l => l.length
decreasing_by
  exact Nat.lt_succ_of_le (gobble_snd_length _ _)

theorem split_join (l : List RequestUnion) :
    (BatchRequest.Split l).flatten = l := by
  induction l using BatchRequest.Split.induct with
  | case1 => simp [BatchRequest.Split]
  | case2 r rs ih =>
    simp only [BatchRequest.Split, List.flatten_cons, ih, List.cons_append]
    rw [gobble_append]

theorem split_part_self (l p : List RequestUnion) (hp : p ∈ BatchRequest.Split l) :
    BatchRequest.Split p = [p] := by
  induction l using BatchRequest.Split.induct with
  | case1 => simp [BatchRequest.Split] at hp
  | case2 r rs ih =>
    simp only [BatchRequest.Split, List.mem_cons] at hp
    rcases hp with h | h
    · subst h
      simp only [BatchRequest.Split, gobble_gobble]
    · exact ih h

/-- C8: concatenating the sub-batches of `BatchRequest.Split` reproduces the
input request sequence in order, and re-splitting any produced sub-batch
returns that sub-batch unchanged as its only part. -/
theorem batch_split_stable (l : List RequestUnion) :
    (BatchRequest.Split l).flatten = l ∧
      ∀ p ∈ BatchRequest.Split l, BatchRequest.Split p = [p] :=
  ⟨split_join l, fun p hp => split_part_self l p hp⟩

/-- Modelled from the spec: the flag table of the request union (the per-type
`flags()` methods are not part of the snapshot).  A `Get` reads and may run in
a transaction. -/
def getFlags : Flags := ⟨true, false, false, false, false, true, false, false⟩

theorem batch_split_stable_witness :
    BatchRequest.Split [(⟨getFlags, 0⟩ : RequestUnion)] = [[⟨getFlags, 0⟩]] :=
  (batch_split_stable [⟨getFlags, 0⟩]).2 [⟨getFlags, 0⟩]
    (by simp [BatchRequest.Split, gobble, compatible])

/-- Modelled from the spec: a `Put` writes, may run in a transaction, and
produces intents (`isTxnWrite`). -/
def putFlags : Flags := ⟨false, true, false, false, false, true, true, false⟩

/-- Modelled from the spec: `AdminSplit` is administrative and must run alone
(`isAdmin`, `isAlone`). -/
def adminSplitFlags : Flags := ⟨false, false, true, false, false, false, false, true⟩

/-- C1 counterexample: the batch `[Get("k"), Put("k","v")]` does NOT stay a
single sub-batch.  `Get` carries no `isWrite` and `Put` does, and `isWrite`
is in the compatibility mask, so the split rule produces two sub-batches;
excluding `isRead` from the mask only keeps read-write requests such as
`ConditionalPut` together with `Put`. -/
theorem split_get_put_counterexample :
    BatchRequest.Split [⟨getFlags, 0⟩, ⟨putFlags, 1⟩]
      ≠ [[⟨getFlags, 0⟩, ⟨putFlags, 1⟩]] := by
  have h : BatchRequest.Split [⟨getFlags, 0⟩, ⟨putFlags, 1⟩]
      = [[⟨getFlags, 0⟩], [⟨putFlags, 1⟩]] := by
    simp [BatchRequest.Split, gobble, compatible, Flags.or, Flags.zero, getFlags, putFlags]
  rw [h]
  decide

/-- C1 (amended): `[Get("k"), Put("k","v")]` splits into the two sub-batches
`[Get]` then `[Put]` (they differ on `isWrite`), and
`[AdminSplit("s"), Put("k","v")]` splits into two sub-batches of one request
each (`AdminSplit` is `isAlone` and `isAdmin`). -/
theorem split_get_put_admin :
    BatchRequest.Split [⟨getFlags, 0⟩, ⟨putFlags, 1⟩]
        = [[⟨getFlags, 0⟩], [⟨putFlags, 1⟩]] ∧
      BatchRequest.Split [⟨adminSplitFlags, 0⟩, ⟨putFlags, 1⟩]
        = [[⟨adminSplitFlags, 0⟩], [⟨putFlags, 1⟩]] := by
  constructor
  · simp [BatchRequest.Split, gobble, compatible, Flags.or, Flags.zero, getFlags, putFlags]
  · simp [BatchRequest.Split, gobble, compatible, Flags.or, Flags.zero, adminSplitFlags,
      putFlags]

/-! ### Batch model: `BatchResponse.Combine` -/

/-- Modelled from the spec: `(wall_time, logical)` with lexicographic
ordering (the `Timestamp` proto lives outside the snapshot; its tests are in
`src/unnamed/part_002`). -/
structure Timestamp where
  wallTime : Int
  logical : Int
deriving DecidableEq

/-- Modelled from the spec: lexicographic `Less` on timestamps. -/
def Timestamp.Less (a b : Timestamp) : Bool :=
  decide (a.wallTime < b.wallTime ∨ (a.wallTime = b.wallTime ∧ a.logical < b.logical))

/-- Modelled from the spec: `Forward` is the monotonic maximum; the receiver
is replaced only when strictly behind the argument. -/
def Timestamp.Forward (a b : Timestamp) : Timestamp :=
  if a.Less b then b else a

/-- One slot of `BatchResponse.Responses`.  `scan` and `reverseScan` are the
combinable response types (their `Combine` concatenates rows); `noop` is
`NoopResponse`; the remaining constructors are non-combinable responses. -/
inductive Resp where
  | scan (rows : List Nat)
  | reverseScan (rows : List Nat)
  | noop
  | put
  | get (v : Option Nat)
deriving DecidableEq

/-- Whether the response type implements the `Combinable` interface. -/
def Resp.combinable : Resp → Bool
  | .scan _ => true
  | .reverseScan _ => true
  | _ => false

inductive CombineErr where
  | lengthMismatch
  | typeMismatch
deriving DecidableEq

/-- One iteration of the slot loop of `BatchResponse.Combine`: if both slots
are combinable they are merged per request type (a type mismatch is an
error); otherwise a `NoopResponse` receiver slot is replaced by the other
batch's slot, and any other receiver slot is kept. -/
def combineSlot (l r : Resp) : Except CombineErr Resp :=
  if l.combinable && r.combinable then
    match l, r with
    | .scan a, .scan b => .ok (.scan (a ++ b))
    | .reverseScan a, .reverseScan b => .ok (.reverseScan (a ++ b))
    | _, _ => .error .typeMismatch
  else if l = .noop then .ok r
  else .ok l

/-- Runs `combineSlot` over the zipped slots, failing on the first error. -/
def combineSlots : List (Resp × Resp) → Except CombineErr (List Resp)
  | [] => .ok []
  | (l, r) :: rest =>
    match combineSlot l r with
    | .error e => .error e
    | .ok c =>
      match combineSlots rest with
      | .error e => .error e
      | .ok cs => .ok (c :: cs)

/-- Modelled from the spec: transaction meta is updated field-wise; an absent
meta adopts the other batch's meta (abstracted to an opaque payload). -/
def txnUpdate (a b : Option Nat) : Option Nat :=
  match a with
  | none => b
  | some x => some x

/-- `BatchResponse`: the response slots plus the header fields touched by
`Combine` (timestamp and transaction meta). -/
structure BatchResponse where
  responses : List Resp
  timestamp : Timestamp
  txn : Option Nat
deriving DecidableEq

/-- `BatchResponse.Combine`: refuses batches of different lengths, merges the
slots pairwise, forwards the timestamp and updates the transaction meta. -/
def BatchResponse.Combine (br otherBatch : BatchResponse) :
    Except CombineErr BatchResponse :=
  if otherBatch.responses.length ≠ br.responses.length then .error .lengthMismatch
  else
    match combineSlots (br.responses.zip otherBatch.responses) with
    | .error e => .error e
    | .ok slots =>
      .ok { responses := slots,
            timestamp := br.timestamp.Forward otherBatch.timestamp,
            txn := txnUpdate br.txn otherBatch.txn }

theorem combineSlots_ok (pairs : List (Resp × Resp)) (slots : List Resp)
    (h : combineSlots pairs = .ok slots) :
    slots.length = pairs.length ∧
      ∀ (i : Nat) (l r : Resp), pairs[i]? = some (l, r) →
        ∃ c, combineSlot l r = .ok c ∧ slots[i]? = some c := by
  induction pairs generalizing slots with
  | nil =>
    simp only [combineSlots] at h
    cases h
    refine ⟨rfl, ?_⟩
    intro i l r hi
    simp at hi
  | cons p rest ih =>
    obtain ⟨l0, r0⟩ := p
    simp only [combineSlots] at h
    rcases hc : combineSlot l0 r0 with e | c0
    · rw [hc] at h; cases h
    · rw [hc] at h
      rcases hr : combineSlots rest with e | cs
      · rw [hr] at h; cases h
      · rw [hr] at h
        cases h
        obtain ⟨hlen, hslot⟩ := ih cs hr
        refine ⟨by simp [hlen], ?_⟩
        intro i l r hi
        cases i with
        | zero =>
          simp only [List.getElem?_cons_zero, Option.some_inj] at hi
          cases hi
          exact ⟨c0, hc, by simp⟩
        | succ j =>
          simp only [List.getElem?_cons_succ] at hi
          obtain ⟨c, hcc, hcs⟩ := hslot j l r hi
          exact ⟨c, hcc, by simpa using hcs⟩

theorem timestamp_forward_max (a b : Timestamp) :
    (a.Forward b = a ∨ a.Forward b = b) ∧
      (a.Forward b).Less a = false ∧ (a.Forward b).Less b = false := by
  unfold Timestamp.Forward
  by_cases h : a.Less b = true
  · rw [if_pos h]
    simp only [Timestamp.Less, decide_eq_true_eq] at h
    refine ⟨Or.inr rfl, ?_, ?_⟩ <;>
      · simp only [Timestamp.Less, decide_eq_false_iff_not]
        omega
  · rw [if_neg h]
    simp only [Timestamp.Less, decide_eq_true_eq] at h
    refine ⟨Or.inl rfl, ?_, ?_⟩ <;>
      · simp only [Timestamp.Less, decide_eq_false_iff_not]
        omega

/-- C10: `BatchResponse.Combine` fails whenever the two responses have
different numbers of slots; on success it combines matching combinable slots
per type, replaces every `NoopResponse` receiver slot with the other batch's
slot, and forwards the receiver's timestamp to the monotonic maximum of the
two timestamps. -/
theorem batch_response_combine (br otherBatch : BatchResponse) :
    (br.responses.length ≠ otherBatch.responses.length →
       br.Combine otherBatch = .error .lengthMismatch) ∧
      ∀ res, br.Combine otherBatch = .ok res →
        res.responses.length = br.responses.length ∧
          (∀ (i : Nat) (l r c : Resp), br.responses[i]? = some l →
            otherBatch.responses[i]? = some r → combineSlot l r = .ok c →
            res.responses[i]? = some c) ∧
          (∀ (i : Nat), br.responses[i]? = some .noop →
            res.responses[i]? = otherBatch.responses[i]?) ∧
          res.timestamp = br.timestamp.Forward otherBatch.timestamp ∧
          (res.timestamp = br.timestamp ∨ res.timestamp = otherBatch.timestamp) ∧
          res.timestamp.Less br.timestamp = false ∧
          res.timestamp.Less otherBatch.timestamp = false := by
  constructor
  · intro hne
    rw [BatchResponse.Combine, if_pos (Ne.symm hne)]
  · intro res h
    rw [BatchResponse.Combine] at h
    by_cases hlen : otherBatch.responses.length ≠ br.responses.length
    · rw [if_pos hlen] at h
      cases h
    · rw [if_neg hlen] at h
      rw [not_ne_iff] at hlen
      rcases hcs : combineSlots (br.responses.zip otherBatch.responses) with e | slots
      · rw [hcs] at h; cases h
      · rw [hcs] at h
        cases h
        obtain ⟨hslen, hslot⟩ := combineSlots_ok _ _ hcs
        have hzlen : (br.responses.zip otherBatch.responses).length
            = br.responses.length := by
          simp [List.length_zip, hlen]
        refine ⟨by simp [hslen, hzlen], ?_, ?_, rfl, ?_⟩
        · intro i l r c hl hr hc
          have hz : (br.responses.zip otherBatch.responses)[i]? = some (l, r) := by
            rw [List.getElem?_zip_eq_some]
            exact ⟨hl, hr⟩
          obtain ⟨c', hc', hs⟩ := hslot i l r hz
          rw [hc] at hc'
          cases hc'
          exact hs
        · intro i hnoop
          have hi : i < br.responses.length := by
            by_contra hge
            rw [List.getElem?_eq_none (Nat.le_of_not_lt hge)] at hnoop
            cases hnoop
          have hio : i < otherBatch.responses.length := by omega
          have hr : otherBatch.responses[i]? = some otherBatch.responses[i] :=
            List.getElem?_eq_getElem hio
          have hz : (br.responses.zip otherBatch.responses)[i]?
              = some (.noop, otherBatch.responses[i]) := by
            rw [List.getElem?_zip_eq_some]
            exact ⟨hnoop, hr⟩
          obtain ⟨c', hc', hs⟩ := hslot i _ _ hz
          have : combineSlot .noop otherBatch.responses[i]
              = .ok otherBatch.responses[i] := rfl
          rw [this] at hc'
          cases hc'
          rw [hs, hr]
        · exact (timestamp_forward_max br.timestamp otherBatch.timestamp).imp_left
            fun hx => by
              obtain ⟨h1, h2, h3⟩ :=
                timestamp_forward_max br.timestamp otherBatch.timestamp
              exact hx

theorem batch_response_combine_witness :
    (BatchResponse.mk [Resp.scan [1, 2]] ⟨1, 0⟩ none).responses[0]?
      = some (Resp.scan [1, 2]) :=
  ((batch_response_combine ⟨[.scan [1]], ⟨0, 0⟩, none⟩ ⟨[.scan [2]], ⟨1, 0⟩, none⟩).2
      ⟨[.scan [1, 2]], ⟨1, 0⟩, none⟩ (by rfl)).2.1 0
    (.scan [1]) (.scan [2]) (.scan [1, 2]) rfl rfl rfl

/-! ### Replica raft storage: engine model -/

/-- A raft log entry `(index, term, data)`; the entry type tag is folded into
`data`. -/
structure RaftEntry where
  index : Nat
  term : Nat
  data : List Nat
deriving DecidableEq

/-- The encoded size of an entry (`ent.Size()`); the exact protobuf size
formula is irrelevant to control flow and is abstracted to one byte of tag
plus the payload length. -/
def RaftEntry.size (e : RaftEntry) : Nat := e.data.length + 1

/-- Raft `HardState { term, vote, commit }`. -/
structure HardState where
  term : Nat
  vote : Nat
  commit : Nat
deriving DecidableEq

/-- The per-range keys of the engine key space: the raft-local metadata keys,
the log keys, and a constructor for every other key of the range (user data,
response cache, descriptor, ...). -/
inductive RaftKey where
  | hardStateKey
  | lastIndexKey
  | appliedIndexKey
  | truncStateKey
  | tombstoneKey
  | logKey (i : Nat)
  | dataKey (b : List Nat)
deriving DecidableEq

/-- Engine values: integers (`Value.SetInt`), hard states, log entries, and
raw bytes. -/
inductive RVal where
  | intVal (n : Nat)
  | hs (h : HardState)
  | ent (e : RaftEntry)
  | raw (b : List Nat)
deriving DecidableEq

/-- The engine, restricted to one replica's key space: an association list
with at most one binding per key. -/
abbrev Engine := List (RaftKey × RVal)

/-- `MVCCGet` on the modelled engine. -/
def engGet (e : Engine) (k : RaftKey) : Option RVal :=
  match e with
  | [] => none
  | (k', v) :: rest => if k' = k then some v else engGet rest k

/-- `MVCCPut` on the modelled engine: replace the binding in place, or append
a fresh one. -/
def engPut (e : Engine) (k : RaftKey) (v : RVal) : Engine :=
  match e with
  | [] => [(k, v)]
  | (k', v') :: rest => if k' = k then (k, v) :: rest else (k', v') :: engPut rest k v

/-- `MVCCDelete` / `batch.Clear` on the modelled engine. -/
def engDel (e : Engine) (k : RaftKey) : Engine :=
  match e with
  | [] => []
  | (k', v') :: rest => if k' = k then engDel rest k else (k', v') :: engDel rest k

theorem engGet_engPut_self (e : Engine) (k : RaftKey) (v : RVal) :
    engGet (engPut e k v) k = some v := by
  induction e with
  | nil => simp [engPut, engGet]
  | cons p rest ih =>
    obtain ⟨k', v'⟩ := p
    by_cases h : k' = k
    · simp [engPut, engGet, h]
    · simp [engPut, engGet, h, ih]

theorem engGet_engPut_ne (e : Engine) (k k' : RaftKey) (v : RVal) (hne : k ≠ k') :
    engGet (engPut e k v) k' = engGet e k' := by
  induction e with
  | nil => simp [engPut, engGet, hne]
  | cons p rest ih =>
    obtain ⟨k0, v0⟩ := p
    by_cases h : k0 = k
    · subst h
      simp [engPut, engGet, hne]
    · simp only [engPut, if_neg h]
      by_cases h' : k0 = k'
      · simp [engGet, h']
      · simp [engGet, h', ih]

theorem engGet_engDel_self (e : Engine) (k : RaftKey) :
    engGet (engDel e k) k = none := by
  induction e with
  | nil => simp [engDel, engGet]
  | cons p rest ih =>
    obtain ⟨k0, v0⟩ := p
    by_cases h : k0 = k
    · simp [engDel, h, ih]
    · simp [engDel, engGet, h, ih]

theorem engGet_engDel_ne (e : Engine) (k k' : RaftKey) (hne : k ≠ k') :
    engGet (engDel e k) k' = engGet e k' := by
  induction e with
  | nil => simp [engDel]
  | cons p rest ih =>
    obtain ⟨k0, v0⟩ := p
    by_cases h : k0 = k
    · subst h
      simp [engDel, engGet, hne, ih]
    · by_cases h' : k0 = k'
      · simp [engDel, engGet, h, h', Ne.symm hne]
      · simp [engDel, engGet, h, h', ih]

/-- The replica-side state touched by the raft storage adapter: the engine
plus the atomically cached `lastIndex` and `appliedIndex`. -/
structure Replica where
  eng : Engine
  lastIndex : Nat
  appliedIndex : Nat
deriving DecidableEq

/-- The deletion loop of `Append`: `for i := lastIndex + 1; i <= prevLastIndex`
deletes `cnt` consecutive log keys starting at `start`. -/
def delLogSpan (e : Engine) (start : Nat) : Nat → Engine
  | 0 => e
  | c + 1 => delLogSpan (engDel e (.logKey start)) (start + 1) c

/-- `Replica.Append`: an empty entry list returns immediately; otherwise, in
one batch, write each entry at its log key, delete any stale log entries
above the new last index, persist the new last index, and update the cached
`lastIndex`. -/
def Replica.Append (r : Replica) (entries : List RaftEntry) : Replica :=
  match entries with
  | [] => r
  | e0 :: rest =>
    let eng1 := (e0 :: rest).foldl
      (fun acc ent => engPut acc (.logKey ent.index) (.ent ent)) r.eng
    let lastIndex := ((e0 :: rest).getLast (List.cons_ne_nil e0 rest)).index
    let prevLastIndex := r.lastIndex
    let eng2 := delLogSpan eng1 (lastIndex + 1) (prevLastIndex - lastIndex)
    let eng3 := engPut eng2 .lastIndexKey (.intVal lastIndex)
    { r with eng := eng3, lastIndex := lastIndex }

/-- C9: appending an empty entry list is a no-op: the engine (log keys and
the persisted last-index key included) and the cached `lastIndex` are
returned unchanged. -/
theorem append_empty_noop (r : Replica) :
    r.Append [] = r ∧ (r.Append []).eng = r.eng ∧
      (r.Append []).lastIndex = r.lastIndex := ⟨rfl, rfl, rfl⟩

/-- Raft `SnapshotMetadata { index, term, conf_state }`. -/
structure SnapMeta where
  index : Nat
  term : Nat
  confState : List Nat
deriving DecidableEq

/-- A raft snapshot: the decoded `RaftSnapshotData` key/value payload plus
its metadata.  The range descriptor inside the payload is not needed by the
verified properties and is elided. -/
structure Snapshot where
  kv : List (RaftKey × RVal)
  meta : SnapMeta
deriving DecidableEq

/-- The binding a sequence of `batch.Put`s of `kv` leaves at key `k`
(last write wins). -/
def kvLast (l : List (RaftKey × RVal)) (k : RaftKey) : Option RVal :=
  match l with
  | [] => none
  | p :: rest =>
    match kvLast rest k with
    | some v => some v
    | none => if p.1 = k then some p.2 else none

theorem engGet_foldl_engPut (l : List (RaftKey × RVal)) (e : Engine) (k : RaftKey) :
    engGet (l.foldl (fun acc p => engPut acc p.1 p.2) e) k
      = match kvLast l k with
        | some v => some v
        | none => engGet e k := by
  induction l generalizing e with
  | nil => simp [kvLast]
  | cons p rest ih =>
    simp only [List.foldl_cons, kvLast, ih]
    by_cases h : p.1 = k
    · subst h
      cases hr : kvLast rest p.1 with
      | none => simp [engGet_engPut_self]
      | some v => simp
    · cases hr : kvLast rest k with
      | none => simp [h, engGet_engPut_ne _ _ _ _ h]
      | some v => simp

/-- `Replica.ApplySnapshot`: read and save the persisted `HardState`; in one
batch clear every key of the range (the replica-data iterator covers the
whole per-replica key space of this model), write every key/value from the
snapshot payload, restore the saved `HardState` (deleting the key if none
was persisted), persist `last_index = snap.metadata.index`; then update the
cached last/applied indices to the snapshot index. -/
def Replica.ApplySnapshot (r : Replica) (snap : Snapshot) : Replica :=
  let hardState := engGet r.eng .hardStateKey
  let eng1 : Engine := []
  let eng2 := snap.kv.foldl (fun acc p => engPut acc p.1 p.2) eng1
  let eng3 :=
    match hardState with
    | none => engDel eng2 .hardStateKey
    | some v => engPut eng2 .hardStateKey v
  let eng4 := engPut eng3 .lastIndexKey (.intVal snap.meta.index)
  { eng := eng4, lastIndex := snap.meta.index, appliedIndex := snap.meta.index }

/-- C2: after `ApplySnapshot`, the previously persisted `HardState` binding
is preserved bit-exact (absent stays absent, even if the snapshot payload
carried the sender's hard state), the persisted last index and the cached
last/applied indices all equal `snap.metadata.index`, and — provided the
snapshot payload is well-formed in that its final write to the applied-index
key records the snapshot index, as every snapshot produced by `Snapshot()`
does — the persisted applied index equals `snap.metadata.index` too. -/
theorem apply_snapshot_spec (r : Replica) (snap : Snapshot)
    (hwf : kvLast snap.kv .appliedIndexKey = some (.intVal snap.meta.index)) :
    engGet (r.ApplySnapshot snap).eng .hardStateKey = engGet r.eng .hardStateKey ∧
      engGet (r.ApplySnapshot snap).eng .lastIndexKey
        = some (.intVal snap.meta.index) ∧
      engGet (r.ApplySnapshot snap).eng .appliedIndexKey
        = some (.intVal snap.meta.index) ∧
      (r.ApplySnapshot snap).lastIndex = snap.meta.index ∧
      (r.ApplySnapshot snap).appliedIndex = snap.meta.index := by
  unfold Replica.ApplySnapshot
  cases hhs : engGet r.eng .hardStateKey with
  | none =>
    refine ⟨?_, ?_, ?_, rfl, rfl⟩
    · rw [engGet_engPut_ne _ _ _ _ (by decide), engGet_engDel_self]
    · rw [engGet_engPut_self]
    · rw [engGet_engPut_ne _ _ _ _ (by decide),
        engGet_engDel_ne _ _ _ (by decide), engGet_foldl_engPut, hwf]
  | some v =>
    refine ⟨?_, ?_, ?_, rfl, rfl⟩
    · rw [engGet_engPut_ne _ _ _ _ (by decide), engGet_engPut_self]
    · rw [engGet_engPut_self]
    · rw [engGet_engPut_ne _ _ _ _ (by decide),
        engGet_engPut_ne _ _ _ _ (by decide), engGet_foldl_engPut, hwf]

/-- Witness for C2, scenario E4: prior `HardState {term 7, vote 3,
commit 10}`, snapshot metadata index 20 (the payload carries the sender's
diverging hard state and the applied-index binding 20): afterwards the
persisted hard state still is `{7, 3, 10}` and both indices are 20. -/
theorem apply_snapshot_spec_witness :
    kvLast [(RaftKey.appliedIndexKey, RVal.intVal 20),
        (RaftKey.hardStateKey, RVal.hs ⟨8, 9, 20⟩)] .appliedIndexKey
      = some (.intVal 20) ∧
    engGet (Replica.ApplySnapshot
        ⟨[(.hardStateKey, .hs ⟨7, 3, 10⟩)], 10, 10⟩
        ⟨[(.appliedIndexKey, .intVal 20), (.hardStateKey, .hs ⟨8, 9, 20⟩)],
          ⟨20, 8, [1, 2, 3]⟩⟩).eng .hardStateKey
      = engGet [(RaftKey.hardStateKey, RVal.hs ⟨7, 3, 10⟩)] .hardStateKey :=
  ⟨by decide,
    (apply_snapshot_spec ⟨[(.hardStateKey, .hs ⟨7, 3, 10⟩)], 10, 10⟩
      ⟨[(.appliedIndexKey, .intVal 20), (.hardStateKey, .hs ⟨8, 9, 20⟩)],
        ⟨20, 8, [1, 2, 3]⟩⟩ (by decide)).1⟩

/-! ### Replica raft storage: `Entries` -/

inductive RaftErr where
  | unavailable
deriving DecidableEq

/-- The log entry stored at index `i`, if any (`MVCCIterate` visits only the
log keys that exist; a missing index simply does not appear). -/
def getLogEntry (e : Engine) (i : Nat) : Option RaftEntry :=
  match engGet e (.logKey i) with
  | some (.ent en) => some en
  | _ => none

/-- The scan loop of `Replica.Entries` over the key span
`[RaftLogKey(lo), RaftLogKey(lo + cnt))`: collect each stored entry, add its
encoded size, and stop right after the accumulated size first exceeds a
positive `maxBytes`.  Returns the collected entries and the accumulated
size. -/
def scanEntries (e : Engine) (maxBytes : Nat) :
    Nat → Nat → Nat → List RaftEntry × Nat
  | _, 0, size => ([], size)
  | lo, cnt + 1, size =>
    match getLogEntry e lo with
    | none => scanEntries e maxBytes (lo + 1) cnt size
    | some ent =>
      let size' := size + ent.size
      if 0 < maxBytes ∧ maxBytes < size' then ([ent], size')
      else
        let rest := scanEntries e maxBytes (lo + 1) cnt size'
        (ent :: rest.1, rest.2)

/-- `Replica.Entries`: scan `[lo, hi)`; if neither the entry count nor the
size limitation accounts for the result, the range is incomplete and the
raft storage reports `Unavailable`.  Log indices are `Nat`; the claims only
concern `lo ≤ hi`, where `Nat` and `uint64` subtraction agree. -/
def Replica.Entries (r : Replica) (lo hi maxBytes : Nat) :
    Except RaftErr (List RaftEntry) :=
  let res := scanEntries r.eng maxBytes lo (hi - lo) 0
  if res.1.length ≠ hi - lo ∧ (maxBytes = 0 ∨ res.2 < maxBytes)
  then .error .unavailable
  else .ok res.1

/-- The entries stored under indices `[lo, lo + cnt)`, in index order, with
missing indices skipped. -/
def storedSlice (e : Engine) (lo cnt : Nat) : List RaftEntry :=
  (List.range' lo cnt).filterMap (getLogEntry e)

/-- Total encoded size of a list of entries. -/
def sizeSum (l : List RaftEntry) : Nat := (l.map RaftEntry.size).sum

theorem sizeSum_nil : sizeSum [] = 0 := rfl

theorem sizeSum_cons (a : RaftEntry) (l : List RaftEntry) :
    sizeSum (a :: l) = a.size + sizeSum l := by
  simp [sizeSum]

theorem sizeSum_take_le (l : List RaftEntry) (k : Nat) :
    sizeSum (l.take k) ≤ sizeSum l := by
  induction l generalizing k with
  | nil => simp
  | cons a rest ih =>
    cases k with
    | zero => simp [sizeSum]
    | succ j =>
      simp only [List.take_succ_cons, sizeSum_cons]
      exact Nat.add_le_add_left (ih j) _

theorem storedSlice_zero (e : Engine) (lo : Nat) : storedSlice e lo 0 = [] := rfl

theorem storedSlice_succ (e : Engine) (lo cnt : Nat) :
    storedSlice e lo (cnt + 1)
      = match getLogEntry e lo with
        | none => storedSlice e (lo + 1) cnt
        | some ent => ent :: storedSlice e (lo + 1) cnt := by
  rw [storedSlice, List.range'_succ, List.filterMap_cons]
  cases getLogEntry e lo <;> rfl

theorem storedSlice_length_le (e : Engine) (lo cnt : Nat) :
    (storedSlice e lo cnt).length ≤ cnt := by
  calc (storedSlice e lo cnt).length ≤ (List.range' lo cnt).length :=
        List.length_filterMap_le _ _
    _ = cnt := List.length_range' ..

theorem storedSlice_length_eq_iff (e : Engine) (cnt : Nat) :
    ∀ lo, (storedSlice e lo cnt).length = cnt ↔
      ∀ i, lo ≤ i → i < lo + cnt → (getLogEntry e i).isSome := by
  induction cnt with
  | zero =>
    intro lo
    constructor
    · intro _ i h1 h2
      omega
    · intro _
      rfl
  | succ c ih =>
    intro lo
    rw [storedSlice_succ]
    cases hent : getLogEntry e lo with
    | none =>
      simp only []
      constructor
      · intro hlen
        have := storedSlice_length_le e (lo + 1) c
        omega
      · intro hall
        have := hall lo (Nat.le_refl lo) (by omega)
        rw [hent] at this
        cases this
    | some ent =>
      simp only [List.length_cons]
      constructor
      · intro hlen i h1 h2
        rcases Nat.eq_or_lt_of_le h1 with he | hl
        · rw [← he, hent]; rfl
        · exact (ih (lo + 1)).mp (by omega) i hl (by omega)
      · intro hall
        have : (storedSlice e (lo + 1) c).length = c :=
          (ih (lo + 1)).mpr fun i h1 h2 => hall i (by omega) (by omega)
        omega

theorem scanEntries_zero (e : Engine) (cnt : Nat) :
    ∀ lo acc, scanEntries e 0 lo cnt acc
      = (storedSlice e lo cnt, acc + sizeSum (storedSlice e lo cnt)) := by
  induction cnt with
  | zero =>
    intro lo acc
    simp [scanEntries, storedSlice_zero, sizeSum_nil]
  | succ c ih =>
    intro lo acc
    rw [storedSlice_succ]
    cases hent : getLogEntry e lo with
    | none => simp [scanEntries, hent, ih]
    | some ent =>
      simp only [scanEntries, hent, Nat.lt_irrefl, false_and, if_false, ih,
        sizeSum_cons]
      refine Prod.ext rfl ?_
      simp only []
      omega

theorem scanEntries_pos (e : Engine) (mb : Nat) (hmb : 0 < mb) (cnt : Nat) :
    ∀ lo acc, acc ≤ mb →
      (scanEntries e mb lo cnt acc).2
          = acc + sizeSum (scanEntries e mb lo cnt acc).1 ∧
        (∃ k, (scanEntries e mb lo cnt acc).1 = (storedSlice e lo cnt).take k) ∧
        ((scanEntries e mb lo cnt acc).1 = storedSlice e lo cnt ∨
          mb < (scanEntries e mb lo cnt acc).2) ∧
        acc + sizeSum (scanEntries e mb lo cnt acc).1.dropLast ≤ mb := by
  induction cnt with
  | zero =>
    intro lo acc hacc
    simp only [scanEntries, storedSlice_zero]
    refine ⟨by simp [sizeSum_nil], ⟨0, by simp⟩, Or.inl trivial, ?_⟩
    simpa [sizeSum_nil] using hacc
  | succ c ih =>
    intro lo acc hacc
    rw [storedSlice_succ]
    cases hent : getLogEntry e lo with
    | none =>
      simp only [scanEntries, hent]
      exact ih (lo + 1) acc hacc
    | some ent =>
      by_cases hstop : mb < acc + ent.size
      · have hcond : 0 < mb ∧ mb < acc + ent.size := ⟨hmb, hstop⟩
        simp only [scanEntries, hent, if_pos hcond]
        refine ⟨by simp [sizeSum_cons, sizeSum_nil], ⟨1, by simp⟩, Or.inr ?_, ?_⟩
        · simpa using hstop
        · simpa [sizeSum_nil] using hacc
      · have hacc2 : acc + ent.size ≤ mb := Nat.le_of_not_lt hstop
        have hif : ¬(0 < mb ∧ mb < acc + ent.size) := fun hc => hstop hc.2
        simp only [scanEntries, hent, if_neg hif]
        obtain ⟨ih1, ⟨k, ihk⟩, ih3, ih4⟩ := ih (lo + 1) (acc + ent.size) hacc2
        refine ⟨?_, ⟨k + 1, ?_⟩, ?_, ?_⟩
        · simp only [sizeSum_cons]
          omega
        · simp [List.take_succ_cons, ihk]
        · rcases ih3 with h | h
          · exact Or.inl (by rw [h])
          · exact Or.inr (by simpa using h)
        · cases hr : (scanEntries e mb (lo + 1) c (acc + ent.size)).1 with
          | nil =>
            simp only [hr, List.dropLast_single, sizeSum_nil]
            omega
          | cons x xs =>
            rw [hr] at ih4
            simp only [hr, List.dropLast_cons₂, sizeSum_cons]
            omega

/-- C3 (amended): `Entries(lo, hi, max_bytes)` with `lo ≤ hi` behaves as
follows.  `Entries(lo, lo, max_bytes)` returns the empty list.  With
`max_bytes = 0` it returns exactly the contiguous stored entries of
`[lo, hi)` when every index is present and fails `Unavailable` when any
index is missing.  With `max_bytes > 0`, a successful result is a non-empty
(when `lo < hi`) prefix of the stored entries whose every proper prefix
stays within `max_bytes` (the scan stops only once the accumulated size
exceeds the limit), and a short result means the accumulated size reached
`max_bytes`; it fails `Unavailable` exactly when the stored range is
incomplete AND the total accumulated size stayed strictly below `max_bytes`
(an accumulated size equal to `max_bytes` counts as size-limited even though
the scan never stopped). -/
theorem entries_spec (r : Replica) (lo hi maxBytes : Nat) (hlh : lo ≤ hi) :
    r.Entries lo lo maxBytes = .ok [] ∧
      (maxBytes = 0 →
        ((∀ i, lo ≤ i → i < hi → (getLogEntry r.eng i).isSome) →
            r.Entries lo hi 0 = .ok (storedSlice r.eng lo (hi - lo))) ∧
          ((∃ i, lo ≤ i ∧ i < hi ∧ getLogEntry r.eng i = none) →
            r.Entries lo hi 0 = .error .unavailable)) ∧
      (0 < maxBytes →
        (∀ es, r.Entries lo hi maxBytes = .ok es →
          (lo < hi → es ≠ []) ∧
            (∃ k, es = (storedSlice r.eng lo (hi - lo)).take k) ∧
            sizeSum es.dropLast ≤ maxBytes ∧
            (es.length ≠ hi - lo → maxBytes ≤ sizeSum es)) ∧
          (r.Entries lo hi maxBytes = .error .unavailable ↔
            (storedSlice r.eng lo (hi - lo)).length ≠ hi - lo ∧
              sizeSum (storedSlice r.eng lo (hi - lo)) < maxBytes)) := by
  have hcnt : lo + (hi - lo) = hi := by omega
  refine ⟨?_, ?_, ?_⟩
  · simp [Replica.Entries, Nat.sub_self, scanEntries]
  · intro hmb0
    subst hmb0
    have hz := scanEntries_zero r.eng (hi - lo) lo 0
    constructor
    · intro hall
      have hlen : (storedSlice r.eng lo (hi - lo)).length = hi - lo :=
        (storedSlice_length_eq_iff r.eng (hi - lo) lo).mpr
          fun i h1 h2 => hall i h1 (by omega)
      simp [Replica.Entries, hz, hlen]
    · intro hmiss
      obtain ⟨i, hi1, hi2, hi3⟩ := hmiss
      have hlen : (storedSlice r.eng lo (hi - lo)).length ≠ hi - lo := by
        intro he
        have := (storedSlice_length_eq_iff r.eng (hi - lo) lo).mp he i hi1 (by omega)
        rw [hi3] at this
        cases this
      simp [Replica.Entries, hz, hlen]
  · intro hmb
    obtain ⟨h1, ⟨k, h2⟩, h3, h4⟩ :=
      scanEntries_pos r.eng maxBytes hmb (hi - lo) lo 0 (Nat.zero_le maxBytes)
    have hmbne : maxBytes ≠ 0 := Nat.pos_iff_ne_zero.mp hmb
    constructor
    · intro es hes
      simp only [Replica.Entries] at hes
      by_cases hc : (scanEntries r.eng maxBytes lo (hi - lo) 0).1.length ≠ hi - lo ∧
          (maxBytes = 0 ∨ (scanEntries r.eng maxBytes lo (hi - lo) 0).2 < maxBytes)
      · rw [if_pos hc] at hes
        cases hes
      · rw [if_neg hc] at hes
        cases hes
        refine ⟨?_, ⟨k, h2⟩, by simpa using h4, ?_⟩
        · intro hlt hnil
          apply hc
          rw [hnil]
          refine ⟨by simp; omega, Or.inr ?_⟩
          rw [hnil] at h1
          simp [sizeSum_nil] at h1
          omega
        · intro hne
          have : ¬(maxBytes = 0 ∨
              (scanEntries r.eng maxBytes lo (hi - lo) 0).2 < maxBytes) :=
            fun ho => hc ⟨hne, ho⟩
          simp only [not_or, Nat.not_lt] at this
          omega
    · constructor
      · intro herr
        simp only [Replica.Entries] at herr
        by_cases hc : (scanEntries r.eng maxBytes lo (hi - lo) 0).1.length ≠ hi - lo ∧
            (maxBytes = 0 ∨ (scanEntries r.eng maxBytes lo (hi - lo) 0).2 < maxBytes)
        · obtain ⟨hclen, hco⟩ := hc
          have hsz : (scanEntries r.eng maxBytes lo (hi - lo) 0).2 < maxBytes := by
            rcases hco with h | h
            · exact absurd h hmbne
            · exact h
          have hfull : (scanEntries r.eng maxBytes lo (hi - lo) 0).1
              = storedSlice r.eng lo (hi - lo) := by
            rcases h3 with h | h
            · exact h
            · omega
          rw [hfull] at hclen
          rw [hfull] at h1
          refine ⟨hclen, by omega⟩
        · rw [if_neg hc] at herr
          cases herr
      · intro ⟨hlen, hsz⟩
        have htk : sizeSum (scanEntries r.eng maxBytes lo (hi - lo) 0).1
            ≤ sizeSum (storedSlice r.eng lo (hi - lo)) := by
          rw [h2]
          exact sizeSum_take_le _ _
        have hfull : (scanEntries r.eng maxBytes lo (hi - lo) 0).1
            = storedSlice r.eng lo (hi - lo) := by
          rcases h3 with h | h
          · exact h
          · omega
        simp only [Replica.Entries]
        rw [if_pos ⟨by rw [hfull]; exact hlen, Or.inr (by omega)⟩]

/-- C3 counterexample: store one entry of encoded size 2 at index 0, leave
index 1 missing, and call `Entries(0, 2, 2)`.  Only 1 < 2 entries are found
and the scan was never stopped by the size limit (the accumulated size 2
never exceeded `max_bytes = 2`), so the claim requires `Unavailable`; the
code instead tests `size < max_bytes`, which fails at equality, and returns
the partial list. -/
theorem entries_size_boundary_counterexample :
    Replica.Entries ⟨[(.logKey 0, .ent ⟨0, 1, [9]⟩)], 0, 0⟩ 0 2 2
        = .ok [⟨0, 1, [9]⟩] ∧
      getLogEntry [(RaftKey.logKey 0, RVal.ent ⟨0, 1, [9]⟩)] 1 = none ∧
      sizeSum [(⟨0, 1, [9]⟩ : RaftEntry)] = 2 :=
  ⟨rfl, rfl, rfl⟩

theorem entries_spec_witness :
    Replica.Entries ⟨[(.logKey 0, .ent ⟨0, 1, [9]⟩)], 0, 0⟩ 0 0 0 = .ok [] :=
  (entries_spec ⟨[(.logKey 0, .ent ⟨0, 1, [9]⟩)], 0, 0⟩ 0 2 0 (by decide)).1

/-! ### Store: key validation (`verifyKeys`) -/

/-- A key: an ordered byte sequence. -/
abbrev Key := List Nat

/-- `bytes.Compare(a, b) < 0`: strict lexicographic order on byte strings,
a proper prefix sorting first. -/
def keyLt : Key → Key → Bool
  | [], [] => false
  | [], _ :: _ => true
  | _ :: _, [] => false
  | a :: as, b :: bs => if a < b then true else if b < a then false else keyLt as bs

/-- `roachpb.KeyMax` is the byte string `\xff\xff`. -/
def KeyMax : Key := [255, 255]

/-- Modelled from the spec: the key space reserves a local prefix; a
range-local key is the range-local marker followed by the address key it
sorts with (suffix and detail abstracted away).  The `keys` package is not
part of the snapshot. -/
def rangeLocalMarker : Key := [0, 0, 0, 107]

/-- Modelled from the spec: `keys.LocalMax`, the sentinel separating
local-only keys from user keys; every local key sorts below it. -/
def localMax : Key := [0, 0, 1]

/-- Whether a key lies in the range-local key space. -/
def isRangeLocal (k : Key) : Bool := rangeLocalMarker.isPrefixOf k

/-- Modelled from the spec: `keys.Addr` maps a range-local key to the
address key it embeds and any other key to itself. -/
def Addr (k : Key) : Key :=
  if isRangeLocal k then k.drop rangeLocalMarker.length else k

/-- `verifyKeys(start, end, checkEndKey)` from `storage/store.go`: `start`
must sort below `KeyMax`; without `checkEndKey` the end key must be empty;
with it, the end key must be non-empty and at most `KeyMax`, the address of
`start` must sort below the address of `end`, a range-local `start` requires
a range-local `end`, and a non-local `start` of a range operation must not
sort below `LocalMax`. -/
def verifyKeys (start endKey : Key) (checkEndKey : Bool) : Bool :=
  if !(keyLt start KeyMax) then false
  else if !checkEndKey then endKey.isEmpty
  else if endKey.isEmpty then false
  else if keyLt KeyMax endKey then false
  else
    let sAddr := Addr start
    let eAddr := Addr endKey
    if !(keyLt sAddr eAddr) then false
    else if sAddr ≠ start then (if eAddr = endKey then false else true)
    else if keyLt start localMax then false
    else true

theorem keyLt_iff_lex (a b : Key) :
    keyLt a b = true ↔ List.Lex (· < ·) a b := by
  induction a generalizing b with
  | nil =>
    cases b with
    | nil => simp [keyLt]
    | cons y ys => simp [keyLt, List.Lex.nil]
  | cons x xs ih =>
    cases b with
    | nil =>
      simp only [keyLt, Bool.false_eq_true, false_iff]
      exact List.Lex.not_nil_right _ _
    | cons y ys =>
      simp only [keyLt]
      by_cases h1 : x < y
      · simp only [if_pos h1, true_iff]
        exact List.Lex.rel h1
      · rw [if_neg h1]
        by_cases h2 : y < x
        · simp only [if_pos h2, Bool.false_eq_true, false_iff]
          intro hlex
          cases hlex with
          | cons h => omega
          | rel h => omega
        · have hxy : x = y := by omega
          subst hxy
          simp only [if_neg h2, ih]
          constructor
          · exact List.Lex.cons
          · intro hlex
            cases hlex with
            | cons h => exact h
            | rel h => omega

/-- C6 (amended): `verifyKeys(start, end, is_range)` accepts exactly when:
`start` sorts below `KeyMax`; if `is_range` is false the end key is empty; if
`is_range` is true the end key is non-empty, at most `KeyMax`, and the
ADDRESS of `start` sorts below the ADDRESS of `end` (so a user-key `start`
with a range-local `end` addressing a larger key is accepted even though the
literal byte strings are out of order); a range-local `start` requires a
range-local `end`, and a non-local `start` must not sort below `LocalMax`. -/
theorem verifyKeys_iff (start endKey : Key) (chk : Bool) :
    verifyKeys start endKey chk = true ↔
      (List.Lex (· < ·) start KeyMax ∧
        (chk = false → endKey = []) ∧
        (chk = true → endKey ≠ [] ∧ ¬ List.Lex (· < ·) KeyMax endKey ∧
          List.Lex (· < ·) (Addr start) (Addr endKey) ∧
          (Addr start ≠ start → Addr endKey ≠ endKey) ∧
          (Addr start = start → ¬ List.Lex (· < ·) start localMax))) := by
  by_cases hs : keyLt start KeyMax
  case neg =>
    have hlex : ¬ List.Lex (· < ·) start KeyMax :=
      fun h => hs ((keyLt_iff_lex _ _).mpr h)
    simp [verifyKeys, hs, hlex]
  case pos =>
    have hlex : List.Lex (· < ·) start KeyMax := (keyLt_iff_lex _ _).mp hs
    cases chk with
    | false =>
      simp [verifyKeys, hs, hlex, List.isEmpty_iff]
    | true =>
      by_cases he : endKey.isEmpty
      · have hee : endKey = [] := List.isEmpty_iff.mp he
        subst hee
        simp [verifyKeys, hs, hlex]
      · have hene : endKey ≠ [] := fun hh => he (by simp [hh])
        by_cases hke : keyLt KeyMax endKey
        · have hkl : List.Lex (· < ·) KeyMax endKey := (keyLt_iff_lex _ _).mp hke
          simp [verifyKeys, hs, he, hke, hlex, hkl]
        · have hknl : ¬ List.Lex (· < ·) KeyMax endKey :=
            fun h => hke ((keyLt_iff_lex _ _).mpr h)
          by_cases hse : keyLt (Addr start) (Addr endKey)
          · have hsel : List.Lex (· < ·) (Addr start) (Addr endKey) :=
              (keyLt_iff_lex _ _).mp hse
            by_cases hsa : Addr start = start
            · by_cases hlm : keyLt start localMax
              · have hlml : List.Lex (· < ·) start localMax :=
                  (keyLt_iff_lex _ _).mp hlm
                simp [verifyKeys, hs, he, hke, hse, hsa, hlm, hlex, hene, hknl,
                  hsel, hlml]
              · have hlmnl : ¬ List.Lex (· < ·) start localMax :=
                  fun h => hlm ((keyLt_iff_lex _ _).mpr h)
                simp [verifyKeys, hs, he, hke, hse, hsa, hlm, hlex, hene, hknl,
                  hsel, hlmnl, keyLt_iff_lex]
            · by_cases hea : Addr endKey = endKey
              · simp [verifyKeys, hs, he, hke, hse, hsa, hea, hlex, hene, hknl,
                  hsel]
              · simp [verifyKeys, hs, he, hke, hse, hsa, hea, hlex, hene, hknl,
                  hsel]
          · have hsenl : ¬ List.Lex (· < ·) (Addr start) (Addr endKey) :=
              fun h => hse ((keyLt_iff_lex _ _).mpr h)
            simp [verifyKeys, hs, he, hke, hse, hlex, hknl, hsenl]

/-- C6 counterexample: `verifyKeys("a", RangeLocal("b"), true)` is accepted
by the code although the literal byte strings satisfy `end < start` (the
range-local marker sorts below `"a"`) and the span mixes a user start key
with a range-local end key; the code compares the ADDRESSES `"a" < "b"` and
only rejects the opposite mix (range-local start, user end). -/
theorem verifyKeys_mixed_counterexample :
    verifyKeys [97] [0, 0, 0, 107, 98] true = true ∧
      keyLt [97] [0, 0, 0, 107, 98] = false ∧
      isRangeLocal [0, 0, 0, 107, 98] = true ∧
      isRangeLocal [97] = false := by
  decide

theorem verifyKeys_iff_witness :
    List.Lex (· < ·) ([97, 97] : Key) KeyMax :=
  ((verifyKeys_iff [97, 97] [98] true).mp (by decide)).1

/-! ### Store: `Bootstrap` -/

/-- `StoreIdent { cluster_id, node_id, store_id }`. -/
structure StoreIdent where
  clusterID : Nat
  nodeID : Nat
  storeID : Nat
deriving DecidableEq

/-- The store-level engine key space: the store-ident key and everything
else. -/
inductive SKey where
  | identKey
  | dataKey (b : List Nat)
deriving DecidableEq

/-- Store-level engine values. -/
inductive SVal where
  | identVal (i : StoreIdent)
  | rawVal (b : List Nat)
deriving DecidableEq

/-- `MVCCGet` on the store engine. -/
def sGet (e : List (SKey × SVal)) (k : SKey) : Option SVal :=
  match e with
  | [] => none
  | (k', v) :: rest => if k' = k then some v else sGet rest k

/-- A store as `Bootstrap` sees it: the in-memory `Ident` and the engine. -/
structure BStore where
  ident : StoreIdent
  eng : List (SKey × SVal)
deriving DecidableEq

inductive BootstrapErr where
  | alreadyBootstrapped
  | alreadyBelongsToCluster
  | invalidContents
deriving DecidableEq

/-- `Store.Bootstrap`: refuse if the in-memory ident is already set; set the
in-memory ident to the request; scan the engine (max 1 key): if any key
exists, a readable persisted ident means the store already belongs to a
cluster (error, after loading the persisted ident into memory), anything
else is invalid content (error); only a fully empty engine gets the new
ident persisted.  Returns the resulting store and the error, if any. -/
def BStore.Bootstrap (s : BStore) (ident : StoreIdent) :
    BStore × Option BootstrapErr :=
  if s.ident.nodeID ≠ 0 then (s, some .alreadyBootstrapped)
  else
    let s1 : BStore := { s with ident := ident }
    match s1.eng with
    | [] => ({ s1 with eng := [(SKey.identKey, SVal.identVal ident)] }, none)
    | _ :: _ =>
      match sGet s1.eng .identKey with
      | some (.identVal existing) => ({ s1 with ident := existing },
          some .alreadyBelongsToCluster)
      | _ => (s1, some .invalidContents)

/-- C5 counterexample: a non-empty engine whose persisted ident carries the
SAME cluster id as the requested ident still makes `Bootstrap` fail (with
"already belongs to cluster", matching the code's own doc comment that any
non-empty engine is an error), where the claim says it should succeed. -/
theorem bootstrap_matching_cluster_counterexample :
    (BStore.Bootstrap ⟨⟨77, 0, 0⟩, [(.identKey, .identVal ⟨77, 1, 1⟩)]⟩
        ⟨77, 1, 1⟩).2 = some .alreadyBelongsToCluster ∧
      sGet [(SKey.identKey, SVal.identVal ⟨77, 1, 1⟩)] .identKey
        = some (.identVal ⟨77, 1, 1⟩) ∧
      (⟨77, 1, 1⟩ : StoreIdent).clusterID = 77 := by
  refine ⟨rfl, rfl, rfl⟩

/-- C5 (amended): `Bootstrap` persists the requested `StoreIdent` and
succeeds if and only if the in-memory ident is unset (`node_id = 0`) and the
engine is completely empty (the scan returns zero keys); in every other
case — including a non-empty engine whose persisted ident matches the
requested cluster — it returns an error and persists nothing. -/
theorem bootstrap_spec (s : BStore) (ident : StoreIdent) :
    ((s.Bootstrap ident).2 = none ↔ s.ident.nodeID = 0 ∧ s.eng = []) ∧
      ((s.Bootstrap ident).2 = none →
        (s.Bootstrap ident).1.eng = [(SKey.identKey, SVal.identVal ident)]) ∧
      ((s.Bootstrap ident).2 ≠ none → (s.Bootstrap ident).1.eng = s.eng) := by
  obtain ⟨sid, seng⟩ := s
  by_cases hn : sid.nodeID ≠ 0
  · simp [BStore.Bootstrap, hn]
  · rw [not_not] at hn
    cases seng with
    | nil => simp [BStore.Bootstrap, hn]
    | cons kv rest =>
      cases hg : sGet (kv :: rest) .identKey with
      | none => simp [BStore.Bootstrap, hn, hg]
      | some v =>
        cases v with
        | identVal ex => simp [BStore.Bootstrap, hn, hg]
        | rawVal b => simp [BStore.Bootstrap, hn, hg]

theorem bootstrap_spec_witness :
    ((BStore.Bootstrap ⟨⟨0, 0, 0⟩, []⟩ ⟨5, 1, 2⟩).2 = none) :=
  (bootstrap_spec ⟨⟨0, 0, 0⟩, []⟩ ⟨5, 1, 2⟩).1.mpr (by decide)

/-! ### Store: `GroupStorage` and raft tombstones -/

/-- First-match association-list lookup (a Go map read). -/
def assocGet {α β : Type} [DecidableEq α] (l : List (α × β)) (k : α) : Option β :=
  match l with
  | [] => none
  | (k', v) :: rest => if k' = k then some v else assocGet rest k

/-- The store state visible to `GroupStorage`: the replicas map, the set of
uninitialized replicas, and the persisted `RaftTombstone` bindings
(`range_id ↦ NextReplicaID`). -/
structure StoreM where
  replicas : List Nat
  uninitReplicas : List Nat
  tombstones : List (Nat × Nat)
deriving DecidableEq

inductive MultiraftErr where
  | groupDeleted
deriving DecidableEq

/-- `Store.GroupStorage(groupID, replicaID)`: return the existing replica if
present; otherwise consult the persisted tombstone — a requested replica ID
that is non-zero and below the tombstone's `NextReplicaID` means the message
is addressed to a dead incarnation and fails `ErrGroupDeleted`; otherwise
create an uninitialized replica and register it. -/
def StoreM.GroupStorage (s : StoreM) (groupID replicaID : Nat) :
    Except MultiraftErr StoreM :=
  if groupID ∈ s.replicas then .ok s
  else
    let create : StoreM :=
      { s with replicas := groupID :: s.replicas,
               uninitReplicas := groupID :: s.uninitReplicas }
    match assocGet s.tombstones groupID with
    | some nextReplicaID =>
      if replicaID ≠ 0 ∧ replicaID < nextReplicaID then .error .groupDeleted
      else .ok create
    | none => .ok create

/-- C4 counterexample: with a persisted tombstone `NextReplicaID = 5 > 0`
and requested replica ID `0` (an unknown replica ID on the incoming path),
the claim demands `GroupDeleted`; the code only rejects a NON-ZERO requested
ID below the tombstone and instead creates and registers an uninitialized
replica. -/
theorem group_storage_zero_replica_counterexample :
    StoreM.GroupStorage ⟨[], [], [(1, 5)]⟩ 1 0
        = .ok ⟨[1], [1], [(1, 5)]⟩ ∧
      assocGet [((1 : Nat), (5 : Nat))] 1 = some 5 ∧ (0 : Nat) < 5 := by
  refine ⟨rfl, rfl, by decide⟩

/-- C4 (amended): for a range with no existing replica, if a persisted
`RaftTombstone` has `NextReplicaID` greater than the requested replica ID
AND the requested replica ID is non-zero, the creation fails with
`GroupDeleted` and the store is unchanged (no uninitialized replica is
added). -/
theorem group_storage_tombstone (s : StoreM) (groupID replicaID next : Nat)
    (hnotin : groupID ∉ s.replicas)
    (hts : assocGet s.tombstones groupID = some next)
    (hnz : replicaID ≠ 0) (hlt : replicaID < next) :
    s.GroupStorage groupID replicaID = .error .groupDeleted := by
  rw [StoreM.GroupStorage, if_neg hnotin]
  simp only [hts]
  rw [if_pos ⟨hnz, hlt⟩]

theorem group_storage_tombstone_witness :
    StoreM.GroupStorage ⟨[], [], [(1, 5)]⟩ 1 3 = .error .groupDeleted :=
  group_storage_tombstone ⟨[], [], [(1, 5)]⟩ 1 3 5 (by decide) (by decide)
    (by decide) (by decide)

/-! ### Multiraft: coalesced heartbeat fan-out -/

inductive MsgKind where
  | heartbeat
  | heartbeatResp
  | other
deriving DecidableEq

/-- A raft message envelope: sender, addressee and type.  For a coalesced
heartbeat the IDs are node IDs; for a fanned-out per-group message they are
replica IDs. -/
structure RaftMsg where
  fromNode : Nat
  toNode : Nat
  kind : MsgKind
deriving DecidableEq

/-- `RaftMessageRequest` as `fanoutHeartbeat` reads it: the coalesced
message plus the store IDs of the sending and receiving replica
descriptors. -/
structure HBRequest where
  msg : RaftMsg
  fromStoreID : Nat
  toStoreID : Nat
deriving DecidableEq

/-- The consensus-loop state consulted by `fanoutHeartbeat`: the local node
ID, the per-remote-node group sets (`s.nodes`), each group's last known
leader node (`s.groups[g].leader.NodeID`), and the
`Storage.ReplicaIDForStore` lookup `(group, store) ↦ replica`. -/
structure HBState where
  nodeID : Nat
  nodes : List (Nat × List Nat)
  groupLeader : List (Nat × Nat)
  replicaIDForStore : List ((Nat × Nat) × Nat)
deriving DecidableEq

/-- `state.fanoutHeartbeat`: for every group shared with the sending node,
step a per-group `MsgHeartbeat` when the sender is believed to be that
group's leader, the sender is not the local node, and both the sender's and
the receiver's store resolve to replica IDs for the group; afterwards,
unconditionally send one `MsgHeartbeatResp` back to the sender.  Returns the
list of `(group, message)` pairs stepped into the consensus library and the
response message sent. -/
def fanoutHeartbeat (s : HBState) (req : HBRequest) :
    List (Nat × RaftMsg) × RaftMsg :=
  let fromID := req.msg.fromNode
  let stepped :=
    match assocGet s.nodes fromID with
    | none => []
    | some groupIDs =>
      groupIDs.filterMap fun groupID =>
        if (assocGet s.groupLeader groupID).getD 0 ≠ fromID ∨ fromID = s.nodeID
        then none
        else
          match assocGet s.replicaIDForStore (groupID, req.fromStoreID) with
          | none => none
          | some fromRepID =>
            match assocGet s.replicaIDForStore (groupID, req.toStoreID) with
            | none => none
            | some toRepID =>
              some (groupID, ⟨fromRepID, toRepID, .heartbeat⟩)
  (stepped, ⟨s.nodeID, fromID, .heartbeatResp⟩)

/-- C7 counterexample: node 2 shares group 5 with node 1, believes node 1
leads group 5, and node 1 ≠ node 2, yet the heartbeat is stepped into NO
group because neither store resolves to a replica ID for group 5 (empty
replica-lookup table); the claim's three conditions are satisfied for group
5, so it demands a fan-out to exactly {5}. -/
theorem fanout_heartbeat_lookup_counterexample :
    (fanoutHeartbeat ⟨2, [(1, [5])], [(5, 1)], []⟩
        ⟨⟨1, 2, .heartbeat⟩, 10, 20⟩).1 = [] ∧
      assocGet [((1 : Nat), [(5 : Nat)])] 1 = some [5] ∧
      assocGet [((5 : Nat), (1 : Nat))] 5 = some 1 ∧
      (1 : Nat) ≠ 2 := by
  refine ⟨rfl, rfl, rfl, by decide⟩

/-- C7 (amended): a heartbeat is stepped into exactly those groups shared
with the sending node for which the sender is believed to be the group's
leader, the sender is not the local node, and both the sender's and the
receiver's store IDs resolve to replica IDs for the group; and regardless of
how many groups were fanned out (zero included), exactly one
`MsgHeartbeatResp` from the local node back to the sender is sent. -/
theorem fanout_heartbeat_spec (s : HBState) (req : HBRequest) (gid : Nat) :
    ((∃ m, (gid, m) ∈ (fanoutHeartbeat s req).1) ↔
      (∃ gids, assocGet s.nodes req.msg.fromNode = some gids ∧ gid ∈ gids) ∧
        (assocGet s.groupLeader gid).getD 0 = req.msg.fromNode ∧
        req.msg.fromNode ≠ s.nodeID ∧
        (assocGet s.replicaIDForStore (gid, req.fromStoreID)).isSome ∧
        (assocGet s.replicaIDForStore (gid, req.toStoreID)).isSome) ∧
      (fanoutHeartbeat s req).2
        = ⟨s.nodeID, req.msg.fromNode, .heartbeatResp⟩ := by
  refine ⟨?_, rfl⟩
  simp only [fanoutHeartbeat]
  cases hn : assocGet s.nodes req.msg.fromNode with
  | none =>
    simp [hn]
  | some gids =>
    simp only [hn, List.mem_filterMap, Option.some_inj]
    constructor
    · intro ⟨m, g, hg, hstep⟩
      by_cases hc : (assocGet s.groupLeader g).getD 0 ≠ req.msg.fromNode ∨
          req.msg.fromNode = s.nodeID
      · rw [if_pos hc] at hstep
        cases hstep
      · rw [if_neg hc] at hstep
        rw [not_or, not_ne_iff] at hc
        cases hf : assocGet s.replicaIDForStore (g, req.fromStoreID) with
        | none => simp [hf] at hstep
        | some fr =>
          cases ht : assocGet s.replicaIDForStore (g, req.toStoreID) with
          | none => simp [hf, ht] at hstep
          | some tr =>
            simp only [hf, ht, Option.some_inj] at hstep
            cases hstep
            exact ⟨⟨gids, rfl, hg⟩, hc.1, hc.2, by simp [hf], by simp [ht]⟩
    · intro ⟨⟨gids', hg', hmem⟩, hld, hne, hf, ht⟩
      cases hg' 
      obtain ⟨fr, hfr⟩ := Option.isSome_iff_exists.mp hf
      obtain ⟨tr, htr⟩ := Option.isSome_iff_exists.mp ht
      refine ⟨⟨fr, tr, .heartbeat⟩, gid, hmem, ?_⟩
      rw [if_neg (by rw [not_or, not_ne_iff]; exact ⟨hld, hne⟩), hfr, htr]

theorem fanout_heartbeat_spec_witness :
    (fanoutHeartbeat ⟨2, [(1, [5])], [(5, 1)], [((5, 10), 7), ((5, 20), 8)]⟩
        ⟨⟨1, 2, .heartbeat⟩, 10, 20⟩).2 = ⟨2, 1, .heartbeatResp⟩ :=
  (fanout_heartbeat_spec ⟨2, [(1, [5])], [(5, 1)], [((5, 10), 7), ((5, 20), 8)]⟩
      ⟨⟨1, 2, .heartbeat⟩, 10, 20⟩ 5).2
